import Mathlib

/-!
Verification of the `wssgui` letter-wheel widget (`src/wssgui/letter_wheel.py`).

The model splits the source into two layers.

Discrete layer (computable): the fields of `MyQGPixmapItem` that drive the gesture
tracker and the highlight logic (`idx`, the constructor argument `n`, `alpha`, `hit`),
the `LetterAreaView` event handlers (`mousePressEvent`, `mouseMoveEvent`,
`mouseReleaseEvent`), and the `LetterArea` operations (`make_word`, `word_path`,
`deselect`).  Scene path items are recorded by pen colour (red guide polygon, blue
replay highlight, green live-drag paths); a path vertex is identified by the `idx` of
the tile whose anchor point (`offset_xy`) it is.  Qt signal emissions are recorded in
the state.  Python exceptions are modelled as an `Option WheelErr` result component:
Python raises but keeps the side effects performed before the raise, so each fallible
operation returns the state as mutated up to the point of the error.

Geometric layer (over `ℝ`): `angle = 2 * pi * i / n` set in `MyQGPixmapItem.__init__`,
and `calc_position`, which are pure functions of the constructor arguments.
-/

namespace Wssgui

/-- Discrete fields of `MyQGPixmapItem`: the wheel index `i`, the constructor
argument `n` (length of the loaded word), the character `alpha`, and the `hit`
flag used by `LetterArea.word_path`.  The stored geometry (`angle`, positions)
is a pure function of `(i, n, center, radius)` and is modelled by `angleOf`,
`ItemGeom` and `calc_position` below. -/
structure Item where
  idx : Nat
  n : Nat
  alpha : Char
  hit : Bool
deriving DecidableEq

/-- One subpath of a `QPainterPath`: `moveTo` starts a subpath, `lineTo` appends a
vertex, `closeSubpath` sets `closed`.  A vertex is the anchor point (`offset_xy`)
of the tile with the recorded `idx`. -/
structure SubPath where
  vertices : List Nat
  closed : Bool
deriving DecidableEq

/-- A `QPainterPath`: its list of subpaths. -/
abbrev PathRep := List SubPath

/-- The `QGraphicsScene` contents relevant to the spec: tile pixmap items, and
path items grouped by pen colour — red guide polygon (`make_word`), blue replay
highlight (`word_path`), green live-drag paths (`mouseMoveEvent`). -/
structure Scene where
  pixmaps : List Item
  reds : List PathRep
  blues : List PathRep
  greens : List PathRep
deriving DecidableEq

def initScene : Scene := { pixmaps := [], reds := [], blues := [], greens := [] }

/-- `LetterAreaView` state: `mouse_pressed`, the selected-widgets set and list,
`has_highlighted`, the accumulated `paint_path`, plus the recorded emissions of
the three signals (`mouseOverWidget`, `mouseReleaseProc`, `clearHighlight`). -/
structure ViewState where
  mouse_pressed : Bool
  selected_widgets_set : List Item
  selected_widgets_list : List Item
  has_highlighted : Bool
  paint_path : PathRep
  mouseOverWidget_emits : List Item
  mouseReleaseProc_emits : List String
  clearHighlight_emits : Nat
deriving DecidableEq

def initView : ViewState :=
  { mouse_pressed := false, selected_widgets_set := [], selected_widgets_list := [],
    has_highlighted := false, paint_path := [],
    mouseOverWidget_emits := [], mouseReleaseProc_emits := [], clearHighlight_emits := 0 }

/-- `LetterAreaView.mousePressEvent`.  `hit` is the result of
`itemAt(event.pos())` restricted to `MyQGPixmapItem` (`none` when the press is
over empty space or a path item). -/
def mousePressEvent (v : ViewState) (hit : Option Item) : ViewState :=
  if v.has_highlighted then
    { v with has_highlighted := false,
             clearHighlight_emits := v.clearHighlight_emits + 1,
             mouse_pressed := false }
  else
    let v1 := { v with mouse_pressed := true }
    match hit with
    | some widget =>
      if widget ∈ v1.selected_widgets_set then v1
      else
        { v1 with paint_path := [],
                  selected_widgets_set := [widget],
                  selected_widgets_list := [widget],
                  mouseOverWidget_emits := v1.mouseOverWidget_emits ++ [widget] }
    | none => v1

/-- `LetterAreaView.mouseMoveEvent`.  When the mouse is pressed: a newly hovered
tile is appended to the set and the list; then, whenever more than one tile is
selected, the polyline through the selected tiles' anchors is appended to
`paint_path` (the path is never cleared between moves, and `moveTo` starts a new
subpath) and a new green `QGraphicsPathItem` holding a snapshot of the whole
`paint_path` is added to the scene (the previous green items are not removed). -/
def mouseMoveEvent (v : ViewState) (hit : Option Item) (sc : Scene) : ViewState × Scene :=
  if v.mouse_pressed then
    let v1 :=
      match hit with
      | some widget =>
        if widget ∈ v.selected_widgets_set then v
        else
          { v with selected_widgets_list := v.selected_widgets_list ++ [widget],
                   selected_widgets_set := v.selected_widgets_set ++ [widget],
                   mouseOverWidget_emits := v.mouseOverWidget_emits ++ [widget] }
      | none => v
    if 1 < v1.selected_widgets_list.length then
      let pp := v1.paint_path ++ [⟨v1.selected_widgets_list.map Item.idx, false⟩]
      ({ v1 with paint_path := pp }, { sc with greens := sc.greens ++ [pp] })
    else (v1, sc)
  else (v, sc)

/-- `LetterAreaView.mouseReleaseEvent`: removes every green path item from the
scene, emits the word joined from the selected list's characters, then clears the
set, the list, `mouse_pressed` and `paint_path`. -/
def mouseReleaseEvent (v : ViewState) (sc : Scene) : ViewState × Scene :=
  ({ v with selected_widgets_set := [],
            selected_widgets_list := [],
            mouse_pressed := false,
            paint_path := [],
            mouseReleaseProc_emits :=
              v.mouseReleaseProc_emits ++ [String.mk (v.selected_widgets_list.map Item.alpha)] },
   { sc with greens := [] })

/-- A pointer event delivered to the view. -/
inductive Event
  | press (hit : Option Item)
  | move (hit : Option Item)
  | release
deriving DecidableEq

def stepEvent : ViewState × Scene → Event → ViewState × Scene
  | (v, sc), .press h => (mousePressEvent v h, sc)
  | (v, sc), .move h => mouseMoveEvent v h sc
  | (v, sc), .release => mouseReleaseEvent v sc

def runEvents (s : ViewState × Scene) (evs : List Event) : ViewState × Scene :=
  evs.foldl stepEvent s

/-- Errors.  `indexError` is the Python `IndexError` raised by `letters[0]` /
`selected[0]` on an empty list.  `invalidArgument` and `assignmentFailure` are
the names of the spec's error taxonomy (section 7); the source never constructs
either of them. -/
inductive WheelErr
  | indexError
  | invalidArgument
  | assignmentFailure
deriving DecidableEq

/-- `LetterArea` state: the scene, the owned view, the wheel (`self.wheel`), and
`last_path_highlighted` (`False`/a blue path item, modelled as an `Option`). -/
structure AreaState where
  scene : Scene
  view : ViewState
  wheel : List Item
  last_path_highlighted : Option PathRep
deriving DecidableEq

def initArea : AreaState :=
  { scene := initScene, view := initView, wheel := [], last_path_highlighted := none }

/-- The tile objects created by `LetterArea.make_word` for `word`:
`MyQGPixmapItem(img, i, len(word), alpha, center, radius)` for `i, alpha` in
`enumerate(word)` (discrete fields only; `hit` starts `False`). -/
def make_word_items (word : String) : List Item :=
  word.toList.enum.map fun ic => { idx := ic.1, n := word.length, alpha := ic.2, hit := false }

/-- `LetterArea.make_word`: creates the tiles, adds each pixmap to the scene,
then draws the red guide polygon `moveTo(letters[0].offset_xy)`,
`lineTo(letter.offset_xy)` for every letter, `closeSubpath()`, and stores the
tiles in `self.wheel`.  On the empty word the loop adds nothing and
`letters[0]` raises `IndexError`. -/
def make_word (a : AreaState) (word : String) : AreaState × Option WheelErr :=
  let letters := make_word_items word
  let a1 := { a with scene := { a.scene with pixmaps := a.scene.pixmaps ++ letters } }
  match letters with
  | [] => (a1, some .indexError)
  | l0 :: _ =>
    let red : PathRep := [⟨l0.idx :: letters.map Item.idx, true⟩]
    ({ a1 with scene := { a1.scene with reds := a1.scene.reds ++ [red] },
               wheel := letters }, none)

/-- `LetterArea.deselect`: removes `last_path_highlighted` from the scene if set. -/
def deselect (a : AreaState) : AreaState :=
  match a.last_path_highlighted with
  | none => a
  | some p =>
    { a with scene := { a.scene with blues := a.scene.blues.erase p },
             last_path_highlighted := none }

/-- The inner loop of `LetterArea.word_path` for one character `c`:
`for x in tmp_letters: if (x.alpha == w) and (not x.hit): x.hit = True;
selected.append(x); break`.  Returns the updated tile list and the appended
tile, if any.  (`tmp_letters = self.wheel.copy()` is a shallow copy, so the
loop reads and mutates the wheel's own tile objects.) -/
def pickTile : List Item → Char → List Item × Option Item
  | [], _ => ([], none)
  | x :: xs, c =>
    if x.alpha = c ∧ x.hit = false then
      ({ x with hit := true } :: xs, some { x with hit := true })
    else
      let r := pickTile xs c
      (x :: r.1, r.2)

/-- The selection loop of `LetterArea.word_path`: one `pickTile` pass per
character of the word, in order.  Returns the final tile list and the
`selected` list. -/
def select_word (tiles : List Item) : List Char → List Item × List Item
  | [] => (tiles, [])
  | c :: cs =>
    let p := pickTile tiles c
    let rest := select_word p.1 cs
    (rest.1,
     match p.2 with
     | some x => x :: rest.2
     | none => rest.2)

/-- `LetterArea.word_path`: clears a prior replay highlight via `deselect`, runs
the greedy selection loop, then draws the blue path `moveTo(selected[0])`,
`lineTo` over `selected[1:]`, adds it to the scene, resets every wheel tile's
`hit` to `False`, stores the path item in `last_path_highlighted` and sets the
view's `has_highlighted`.  When `selected` is empty, `selected[0]` raises
`IndexError` (after the deselect already happened). -/
def word_path (a0 : AreaState) (word : String) : AreaState × Option WheelErr :=
  let a := if a0.last_path_highlighted.isSome then deselect a0 else a0
  let sw := select_word a.wheel word.toList
  match sw.2 with
  | [] => ({ a with wheel := sw.1 }, some .indexError)
  | s0 :: rest =>
    let blue : PathRep := [⟨s0.idx :: rest.map Item.idx, false⟩]
    ({ a with scene := { a.scene with blues := a.scene.blues ++ [blue] },
              wheel := sw.1.map fun x => { x with hit := false },
              last_path_highlighted := some blue,
              view := { a.view with has_highlighted := true } }, none)

/-- Modelled from the spec: the `clearHighlight` signal emitted by
`LetterAreaView.mousePressEvent` is delivered synchronously to
`LetterArea.deselect` ("any press while a replay highlight is showing clears
the highlight"); the signal connection itself is outside `letter_wheel.py`.
The emission happens exactly when `has_highlighted` was set. -/
def systemMousePress (a : AreaState) (hit : Option Item) : AreaState :=
  let a1 := { a with view := mousePressEvent a.view hit }
  if a.view.has_highlighted then deselect a1 else a1

/-! ## Specification-side definitions (for refinement statements) -/

/-- Spec-side greedy assignment ("for each character of `word` in order, find
the first currently-unused Tile whose character matches, mark it used"): the
first tile of `tiles`, in wheel order, whose character is `c` and whose `idx`
is not yet in `used`. -/
def firstUnusedIdx (tiles : List Item) (used : List Nat) (c : Char) : Option Item :=
  tiles.find? fun x => decide (x.alpha = c ∧ x.idx ∉ used)

/-- Spec-side greedy selection with an explicit used-index set, following the
spec's wording; to be compared with `select_word`, which marks `hit` flags on
the tiles themselves. -/
def greedySpecSel (tiles : List Item) : List Char → List Nat → List Item
  | [], _ => []
  | c :: cs, used =>
    match firstUnusedIdx tiles used c with
    | some x => x :: greedySpecSel tiles cs (x.idx :: used)
    | none => greedySpecSel tiles cs used

/-- The used-index set accumulated by the spec-side greedy selection. -/
def greedyUsed (tiles : List Item) : List Char → List Nat → List Nat
  | [], used => used
  | c :: cs, used =>
    match firstUnusedIdx tiles used c with
    | some x => greedyUsed tiles cs (x.idx :: used)
    | none => greedyUsed tiles cs used

/-- Marks `hit := true` on exactly the tiles whose `idx` lies in `used`
(the refinement image of a used-index set on an all-unhit tile list). -/
def setHits (tiles : List Item) (used : List Nat) : List Item :=
  tiles.map fun x => if x.idx ∈ used then { x with hit := true } else x

/-- Number of tiles with character `c` not yet used — the resource the greedy
assignment consumes. -/
def freeCount (tiles : List Item) (used : List Nat) (c : Char) : Nat :=
  (tiles.filter fun x => decide (x.alpha = c ∧ x.idx ∉ used)).length

/-- The word's letters can all be matched one-to-one against the wheel's tiles:
each character is requested no more often than it occurs on the wheel. -/
def canFullyMatch (tiles : List Item) (word : List Char) : Prop :=
  ∀ c ∈ word, word.count c ≤ (tiles.filter fun x => decide (x.alpha = c)).length

instance (tiles : List Item) (word : List Char) : Decidable (canFullyMatch tiles word) := by
  unfold canFullyMatch; infer_instance

/-- Spec-side "distinct visited tiles in visit order": keeps the first
occurrence of each tile, skipping tiles already seen. -/
def firstVisitsAux (seen : List Item) : List Item → List Item
  | [] => []
  | x :: xs =>
    if x ∈ seen then firstVisitsAux seen xs
    else x :: firstVisitsAux (x :: seen) xs

def firstVisits (l : List Item) : List Item := firstVisitsAux [] l

/-! ## Geometric layer -/

/-- `self.angle = 2 * math.pi * i / n` from `MyQGPixmapItem.__init__`. -/
noncomputable def angleOf (i n : ℕ) : ℝ := 2 * Real.pi * i / n

/-- The real-valued fields of `MyQGPixmapItem` used by `calc_position`. -/
structure ItemGeom where
  angle : ℝ
  center_x : ℝ
  center_y : ℝ
  radius : ℝ
  half_width : ℝ
  half_height : ℝ

/-- The geometric fields set by `MyQGPixmapItem.__init__(img, i, n, alpha,
center, radius)`: `angle = 2·pi·i/n`, the centre coordinates, the radius, and
the glyph's half extents from its bounding rectangle. -/
noncomputable def mkItemGeom (i n : ℕ) (cx cy radius hw hh : ℝ) : ItemGeom :=
  { angle := angleOf i n, center_x := cx, center_y := cy, radius := radius,
    half_width := hw, half_height := hh }

/-- `MyQGPixmapItem.calc_position(r, offset)`: Python's `if not r: r =
self.radius` treats both the default `False` and `0` as "use the stored
radius"; with `offset` unset the glyph's half extents are subtracted and the
result is the draw position, with `offset` set the raw circle point is stored
as `offset_xy`. -/
noncomputable def calc_position (t : ItemGeom) (r : Option ℝ) (offset : Bool) : ℝ × ℝ :=
  let rr : ℝ :=
    match r with
    | none => t.radius
    | some v => if v = 0 then t.radius else v
  let x := t.center_x + rr * Real.cos t.angle
  let y := t.center_y + rr * Real.sin t.angle
  if offset then (x, y) else (x - t.half_width, y - t.half_height)

/-! ## Basic facts about the loaded wheel -/

lemma make_word_items_map_idx (word : String) :
    (make_word_items word).map Item.idx = List.range word.toList.length := by
  unfold make_word_items
  rw [List.map_map]
  have h : (Item.idx ∘ fun ic : Nat × Char =>
      Item.mk ic.1 word.length ic.2 false) = Prod.fst := rfl
  rw [h, List.enum_map_fst]

lemma make_word_items_idx_nodup (word : String) :
    ((make_word_items word).map Item.idx).Nodup := by
  rw [make_word_items_map_idx]; exact List.nodup_range _

lemma make_word_items_unhit (word : String) :
    ∀ x ∈ make_word_items word, x.hit = false := by
  intro x hx
  unfold make_word_items at hx
  rw [List.mem_map] at hx
  obtain ⟨ic, _, h⟩ := hx
  rw [← h]

/-! ## Refinement: `select_word` against the spec-side greedy selection -/

lemma setHits_nil (tiles : List Item) : setHits tiles [] = tiles := by
  unfold setHits
  simp

lemma setHits_insert_irrel (ys : List Item) (k : Nat) (used : List Nat)
    (hk : k ∉ ys.map Item.idx) : setHits ys (k :: used) = setHits ys used := by
  unfold setHits
  apply List.map_congr_left
  intro z hz
  have hzk : z.idx ≠ k := fun h => hk (h ▸ List.mem_map_of_mem Item.idx hz)
  by_cases hzu : z.idx ∈ used
  · simp [hzu, List.mem_cons]
  · simp [hzu, List.mem_cons, hzk]

lemma pickTile_setHits (c : Char) :
    ∀ (tiles : List Item) (used : List Nat),
      (tiles.map Item.idx).Nodup → (∀ x ∈ tiles, x.hit = false) →
      pickTile (setHits tiles used) c =
        match firstUnusedIdx tiles used c with
        | none => (setHits tiles used, none)
        | some x => (setHits tiles (x.idx :: used), some { x with hit := true }) := by
  intro tiles
  induction tiles with
  | nil => intro used _ _; rfl
  | cons y ys ih =>
    intro used hnd hun
    have hy : y.hit = false := hun y (List.mem_cons_self y ys)
    rw [List.map_cons, List.nodup_cons] at hnd
    obtain ⟨hynotin, hndtail⟩ := hnd
    have huntail : ∀ x ∈ ys, x.hit = false := fun x hx => hun x (List.mem_cons_of_mem y hx)
    by_cases hmem : y.idx ∈ used
    · -- head already used: its image has hit = true, so pickTile skips it
      have hhead : setHits (y :: ys) used
          = { y with hit := true } :: setHits ys used := by
        unfold setHits; rw [List.map_cons, if_pos hmem]
      have hskip : firstUnusedIdx (y :: ys) used c = firstUnusedIdx ys used c := by
        unfold firstUnusedIdx
        apply List.find?_cons_of_neg
        simp [hmem]
      rw [hhead, hskip]
      have hguard : ¬ (({ y with hit := true } : Item).alpha = c
          ∧ ({ y with hit := true } : Item).hit = false) := by
        intro h
        exact absurd h.2 (by simp)
      rcases hfu : firstUnusedIdx ys used c with _ | x
      · have := ih used hndtail huntail
        rw [hfu] at this
        simp only [pickTile, if_neg hguard, this]
      · have := ih used hndtail huntail
        rw [hfu] at this
        simp only [pickTile, if_neg hguard, this]
        have hx : x ∈ ys := List.mem_of_find?_eq_some hfu
        have hhead2 : setHits (y :: ys) (x.idx :: used)
            = { y with hit := true } :: setHits ys (x.idx :: used) := by
          unfold setHits
          rw [List.map_cons, if_pos (List.mem_cons_of_mem x.idx hmem)]
        rw [hhead2]
    · -- head not used yet: its image is y itself (unhit)
      have hhead : setHits (y :: ys) used = y :: setHits ys used := by
        unfold setHits; rw [List.map_cons, if_neg hmem]
      rw [hhead]
      by_cases halpha : y.alpha = c
      · have hfound : firstUnusedIdx (y :: ys) used c = some y := by
          unfold firstUnusedIdx
          apply List.find?_cons_of_pos
          simp [halpha, hmem]
        rw [hfound]
        have hguard : y.alpha = c ∧ y.hit = false := ⟨halpha, hy⟩
        simp only [pickTile, if_pos hguard]
        have hhead2 : setHits (y :: ys) (y.idx :: used)
            = { y with hit := true } :: setHits ys (y.idx :: used) := by
          unfold setHits
          rw [List.map_cons, if_pos (List.mem_cons_self y.idx used)]
        rw [hhead2, setHits_insert_irrel ys y.idx used hynotin]
      · have hskip : firstUnusedIdx (y :: ys) used c = firstUnusedIdx ys used c := by
          unfold firstUnusedIdx
          apply List.find?_cons_of_neg
          simp [halpha]
        rw [hskip]
        have hguard : ¬ (y.alpha = c ∧ y.hit = false) := fun h => halpha h.1
        rcases hfu : firstUnusedIdx ys used c with _ | x
        · have := ih used hndtail huntail
          rw [hfu] at this
          simp only [pickTile, if_neg hguard, this]
        · have := ih used hndtail huntail
          rw [hfu] at this
          simp only [pickTile, if_neg hguard, this]
          have hx : x ∈ ys := List.mem_of_find?_eq_some hfu
          have hyx : y.idx ≠ x.idx :=
            fun h => hynotin (h ▸ List.mem_map_of_mem Item.idx hx)
          have hhead2 : setHits (y :: ys) (x.idx :: used) = y :: setHits ys (x.idx :: used) := by
            unfold setHits
            rw [List.map_cons, if_neg (by simp [List.mem_cons, hyx, hmem])]
          rw [hhead2]

lemma select_word_setHits :
    ∀ (word : List Char) (tiles : List Item) (used : List Nat),
      (tiles.map Item.idx).Nodup → (∀ x ∈ tiles, x.hit = false) →
      select_word (setHits tiles used) word =
        (setHits tiles (greedyUsed tiles word used),
         (greedySpecSel tiles word used).map fun x => { x with hit := true }) := by
  intro word
  induction word with
  | nil => intro tiles used _ _; rfl
  | cons c cs ih =>
    intro tiles used hnd hun
    have hpick := pickTile_setHits c tiles used hnd hun
    rcases hfu : firstUnusedIdx tiles used c with _ | x
    · rw [hfu] at hpick
      simp only [select_word, greedySpecSel, greedyUsed, hfu, hpick]
      rw [ih tiles used hnd hun]
    · rw [hfu] at hpick
      simp only [select_word, greedySpecSel, greedyUsed, hfu, hpick]
      rw [ih tiles (x.idx :: used) hnd hun]
      simp

/-! ## Completeness of the greedy selection when the letter counts suffice -/

lemma freeCount_tail_irrel (ys : List Item) (k : Nat) (used : List Nat) (d : Char)
    (hk : k ∉ ys.map Item.idx) :
    (ys.filter fun z => decide (z.alpha = d ∧ z.idx ∉ k :: used)).length
      = (ys.filter fun z => decide (z.alpha = d ∧ z.idx ∉ used)).length := by
  congr 1
  apply List.filter_congr
  intro z hz
  have hzk : z.idx ≠ k := fun h => hk (h ▸ List.mem_map_of_mem Item.idx hz)
  simp [List.mem_cons, hzk]

lemma freeCount_insert (d : Char) :
    ∀ (tiles : List Item) (used : List Nat) (x : Item),
      (tiles.map Item.idx).Nodup → x ∈ tiles → x.idx ∉ used →
      freeCount tiles (x.idx :: used) d
        = freeCount tiles used d - (if d = x.alpha then 1 else 0) := by
  intro tiles
  induction tiles with
  | nil => intro used x _ hx _; cases hx
  | cons y ys ih =>
    intro used x hnd hx hxu
    rw [List.map_cons, List.nodup_cons] at hnd
    obtain ⟨hynotin, hndtail⟩ := hnd
    rcases List.mem_cons.mp hx with h | h
    · -- the inserted tile is the head
      subst h
      have htail : (ys.filter fun z => decide (z.alpha = d ∧ z.idx ∉ x.idx :: used)).length
          = (ys.filter fun z => decide (z.alpha = d ∧ z.idx ∉ used)).length :=
        freeCount_tail_irrel ys x.idx used d hynotin
      unfold freeCount
      rw [List.filter_cons, List.filter_cons]
      by_cases hda : x.alpha = d
      · rw [if_neg (by simp), if_pos (by simp [hda, hxu])]
        rw [htail, List.length_cons, if_pos hda.symm]
        omega
      · rw [if_neg (by simp [hda]), if_neg (by simp [hda])]
        rw [htail, if_neg (fun he => hda he.symm)]
        omega
    · -- the inserted tile lies in the tail
      have hyx : y.idx ≠ x.idx :=
        fun he => hynotin (he ▸ List.mem_map_of_mem Item.idx h)
      have htail := ih used x hndtail h hxu
      unfold freeCount at htail ⊢
      rw [List.filter_cons, List.filter_cons]
      by_cases hy : y.alpha = d ∧ y.idx ∉ used
      · rw [if_pos (by simp [hy.1, List.mem_cons, hyx, hy.2]), if_pos (by simp [hy.1, hy.2])]
        rw [List.length_cons, List.length_cons]
        by_cases hdx : d = x.alpha
        · have hxin : x ∈ ys.filter fun z => decide (z.alpha = d ∧ z.idx ∉ used) := by
            rw [List.mem_filter]
            exact ⟨h, by simp [hdx.symm, hxu]⟩
          have hpos : 0 < (ys.filter fun z => decide (z.alpha = d ∧ z.idx ∉ used)).length :=
            List.length_pos.mpr fun he => by rw [he] at hxin; cases hxin
          rw [if_pos hdx] at htail ⊢
          omega
        · rw [if_neg hdx] at htail ⊢
          omega
      · rw [if_neg (by simp only [decide_eq_true_eq, List.mem_cons, not_or]; tauto),
            if_neg (by simp only [decide_eq_true_eq]; exact hy)]
        exact htail

lemma greedySpecSel_complete :
    ∀ (word : List Char) (tiles : List Item) (used : List Nat),
      (tiles.map Item.idx).Nodup →
      (∀ c, word.count c ≤ freeCount tiles used c) →
      (greedySpecSel tiles word used).map Item.alpha = word
      ∧ ((greedySpecSel tiles word used).map Item.idx).Nodup
      ∧ ∀ x ∈ greedySpecSel tiles word used, x.idx ∉ used := by
  intro word
  induction word with
  | nil =>
    intro tiles used _ _
    exact ⟨rfl, List.nodup_nil, fun x hx => absurd hx (List.not_mem_nil x)⟩
  | cons c cs ih =>
    intro tiles used hnd hc
    have h1 : 1 ≤ freeCount tiles used c := by
      have := hc c
      have hcount : 0 < (c :: cs).count c :=
        List.count_pos_iff.mpr (List.mem_cons_self c cs)
      omega
    have hfind : ∃ x, firstUnusedIdx tiles used c = some x := by
      rcases hfu : firstUnusedIdx tiles used c with _ | x
      · exfalso
        have hall := List.find?_eq_none.mp hfu
        have hzero : freeCount tiles used c = 0 := by
          unfold freeCount
          rw [List.length_eq_zero]
          exact List.filter_eq_nil_iff.mpr fun z hz => by simpa using hall z hz
        omega
      · exact ⟨x, rfl⟩
    obtain ⟨x, hfu⟩ := hfind
    have hpx : x.alpha = c ∧ x.idx ∉ used := by
      have := List.find?_some hfu
      simpa using this
    have hxmem : x ∈ tiles := List.mem_of_find?_eq_some hfu
    have hc' : ∀ d, cs.count d ≤ freeCount tiles (x.idx :: used) d := by
      intro d
      have hcd := hc d
      rw [freeCount_insert d tiles used x hnd hxmem hpx.2]
      by_cases hdc : d = c
      · subst hdc
        rw [List.count_cons_self] at hcd
        rw [if_pos hpx.1.symm]
        omega
      · rw [List.count_cons_of_ne hdc] at hcd
        rw [if_neg (by rw [hpx.1]; exact hdc)]
        omega
    obtain ⟨ha, hb, hd⟩ := ih tiles (x.idx :: used) hnd hc'
    refine ⟨?_, ?_, ?_⟩
    · simp only [greedySpecSel, hfu, List.map_cons, ha, hpx.1]
    · simp only [greedySpecSel, hfu, List.map_cons, List.nodup_cons]
      refine ⟨?_, hb⟩
      intro hmem
      rw [List.mem_map] at hmem
      obtain ⟨z, hz, hze⟩ := hmem
      exact (hd z hz) (hze ▸ List.mem_cons_self x.idx used)
    · intro z hz
      simp only [greedySpecSel, hfu] at hz
      rcases List.mem_cons.mp hz with h | h
      · rw [h]; exact hpx.2
      · exact fun hzu => (hd z h) (List.mem_cons_of_mem x.idx hzu)

lemma freeCount_nil_used (tiles : List Item) (c : Char) :
    freeCount tiles [] c = (tiles.filter fun x => decide (x.alpha = c)).length := by
  unfold freeCount
  congr 1
  apply List.filter_congr
  intro z _
  simp

/-! ## The drag gesture -/

lemma firstVisitsAux_congr :
    ∀ (l seen1 seen2 : List Item),
      (∀ x : Item, x ∈ seen1 ↔ x ∈ seen2) →
      firstVisitsAux seen1 l = firstVisitsAux seen2 l := by
  intro l
  induction l with
  | nil => intro _ _ _; rfl
  | cons x xs ih =>
    intro seen1 seen2 h
    simp only [firstVisitsAux]
    by_cases hx : x ∈ seen1
    · rw [if_pos hx, if_pos ((h x).mp hx)]
      exact ih seen1 seen2 h
    · rw [if_neg hx, if_neg fun hc => hx ((h x).mpr hc)]
      rw [ih (x :: seen1) (x :: seen2) (by intro z; simp [List.mem_cons, h z])]

lemma firstVisitsAux_nodup :
    ∀ (l seen : List Item),
      (firstVisitsAux seen l).Nodup ∧ ∀ x ∈ firstVisitsAux seen l, x ∉ seen := by
  intro l
  induction l with
  | nil =>
    intro seen
    exact ⟨List.nodup_nil, fun x hx => absurd hx (List.not_mem_nil x)⟩
  | cons y ys ih =>
    intro seen
    simp only [firstVisitsAux]
    by_cases hy : y ∈ seen
    · rw [if_pos hy]; exact ih seen
    · rw [if_neg hy]
      obtain ⟨h1, h2⟩ := ih (y :: seen)
      refine ⟨?_, ?_⟩
      · rw [List.nodup_cons]
        exact ⟨fun hc => (h2 y hc) (List.mem_cons_self y seen), h1⟩
      · intro x hx
        rcases List.mem_cons.mp hx with h | h
        · rw [h]; exact hy
        · exact fun hc => (h2 x h) (List.mem_cons_of_mem y hc)

/-- A run of pointer-move events while the mouse is pressed: the pressed flag
and the released-words log are untouched, the set stays equal to the list, and
the list grows by exactly the first visits of the newly hovered tiles. -/
lemma runEvents_moves :
    ∀ (moves : List (Option Item)) (v : ViewState) (sc : Scene),
      v.mouse_pressed = true →
      v.selected_widgets_set = v.selected_widgets_list →
      (runEvents (v, sc) (moves.map Event.move)).1.mouse_pressed = true
      ∧ (runEvents (v, sc) (moves.map Event.move)).1.selected_widgets_set
          = (runEvents (v, sc) (moves.map Event.move)).1.selected_widgets_list
      ∧ (runEvents (v, sc) (moves.map Event.move)).1.selected_widgets_list
          = v.selected_widgets_list
            ++ firstVisitsAux v.selected_widgets_list (moves.filterMap id)
      ∧ (runEvents (v, sc) (moves.map Event.move)).1.mouseReleaseProc_emits
          = v.mouseReleaseProc_emits := by
  intro moves
  induction moves with
  | nil =>
    intro v sc h1 h2
    exact ⟨h1, h2, by simp [runEvents, firstVisitsAux], rfl⟩
  | cons m ms ih =>
    intro v sc h1 h2
    have hstep : runEvents (v, sc) ((m :: ms).map Event.move)
        = runEvents (mouseMoveEvent v m sc) (ms.map Event.move) := rfl
    rcases m with _ | t
    · -- move over empty space: only the painted path may change
      have hred : mouseMoveEvent v none sc
          = if 1 < v.selected_widgets_list.length then
              ({ v with paint_path := v.paint_path
                    ++ [⟨v.selected_widgets_list.map Item.idx, false⟩] },
               { sc with greens := sc.greens ++ [v.paint_path
                    ++ [⟨v.selected_widgets_list.map Item.idx, false⟩]] })
            else (v, sc) := by
        simp [mouseMoveEvent, h1]
      by_cases hlen : 1 < v.selected_widgets_list.length
      · rw [if_pos hlen] at hred
        rw [hstep, hred]
        have := ih { v with paint_path := v.paint_path
              ++ [⟨v.selected_widgets_list.map Item.idx, false⟩] }
            { sc with greens := sc.greens ++ [v.paint_path
              ++ [⟨v.selected_widgets_list.map Item.idx, false⟩]] } h1 h2
        simpa [List.filterMap_cons] using this
      · rw [if_neg hlen] at hred
        rw [hstep, hred]
        have := ih v sc h1 h2
        simpa [List.filterMap_cons] using this
    · -- move over a tile
      by_cases hmem : t ∈ v.selected_widgets_set
      · -- already selected: no append (only the path may change)
        have hmem' : t ∈ v.selected_widgets_list := h2 ▸ hmem
        have hred : mouseMoveEvent v (some t) sc
            = if 1 < v.selected_widgets_list.length then
                ({ v with paint_path := v.paint_path
                      ++ [⟨v.selected_widgets_list.map Item.idx, false⟩] },
                 { sc with greens := sc.greens ++ [v.paint_path
                      ++ [⟨v.selected_widgets_list.map Item.idx, false⟩]] })
              else (v, sc) := by
          simp [mouseMoveEvent, h1, hmem]
        have hfv : firstVisitsAux v.selected_widgets_list ((some t :: ms).filterMap id)
            = firstVisitsAux v.selected_widgets_list (ms.filterMap id) := by
          simp only [List.filterMap_cons, id]
          simp only [firstVisitsAux, if_pos hmem']
        by_cases hlen : 1 < v.selected_widgets_list.length
        · rw [if_pos hlen] at hred
          rw [hstep, hred, hfv]
          exact ih _ _ h1 h2
        · rw [if_neg hlen] at hred
          rw [hstep, hred, hfv]
          exact ih v sc h1 h2
      · -- new tile: appended to the set and the list
        have hmem' : t ∉ v.selected_widgets_list := h2 ▸ hmem
        have hv1 : ∀ w : ViewState,
            w = { v with selected_widgets_list := v.selected_widgets_list ++ [t],
                         selected_widgets_set := v.selected_widgets_set ++ [t],
                         mouseOverWidget_emits := v.mouseOverWidget_emits ++ [t] } →
            w.mouse_pressed = true ∧ w.selected_widgets_set = w.selected_widgets_list := by
          intro w hw
          subst hw
          exact ⟨h1, by simp [h2]⟩
        have hred : mouseMoveEvent v (some t) sc
            = (let v1 : ViewState :=
                { v with selected_widgets_list := v.selected_widgets_list ++ [t],
                         selected_widgets_set := v.selected_widgets_set ++ [t],
                         mouseOverWidget_emits := v.mouseOverWidget_emits ++ [t] }
               if 1 < v1.selected_widgets_list.length then
                ({ v1 with paint_path := v1.paint_path
                      ++ [⟨v1.selected_widgets_list.map Item.idx, false⟩] },
                 { sc with greens := sc.greens ++ [v1.paint_path
                      ++ [⟨v1.selected_widgets_list.map Item.idx, false⟩]] })
               else (v1, sc)) := by
          simp [mouseMoveEvent, h1, hmem]
        have hfv : firstVisitsAux v.selected_widgets_list ((some t :: ms).filterMap id)
            = t :: firstVisitsAux (t :: v.selected_widgets_list) (ms.filterMap id) := by
          simp only [List.filterMap_cons, id]
          simp only [firstVisitsAux, if_neg hmem']
        have hcongr : firstVisitsAux (t :: v.selected_widgets_list) (ms.filterMap id)
            = firstVisitsAux (v.selected_widgets_list ++ [t]) (ms.filterMap id) := by
          apply firstVisitsAux_congr
          intro z
          simp [List.mem_cons, List.mem_append, or_comm]
        set v1 : ViewState :=
          { v with selected_widgets_list := v.selected_widgets_list ++ [t],
                   selected_widgets_set := v.selected_widgets_set ++ [t],
                   mouseOverWidget_emits := v.mouseOverWidget_emits ++ [t] } with hv1def
        obtain ⟨hw1, hw2⟩ := hv1 v1 hv1def
        by_cases hlen : 1 < v1.selected_widgets_list.length
        · rw [hstep, hred]
          simp only [hv1def.symm]
          rw [if_pos hlen]
          have := ih { v1 with paint_path := v1.paint_path
                ++ [⟨v1.selected_widgets_list.map Item.idx, false⟩] }
              { sc with greens := sc.greens ++ [v1.paint_path
                ++ [⟨v1.selected_widgets_list.map Item.idx, false⟩]] } hw1 hw2
          refine ⟨this.1, this.2.1, ?_, this.2.2.2⟩
          rw [this.2.2.1]
          simp only [hv1def, hfv, hcongr]
          simp [List.append_assoc]
        · rw [hstep, hred]
          simp only [hv1def.symm]
          rw [if_neg hlen]
          have := ih v1 sc hw1 hw2
          refine ⟨this.1, this.2.1, ?_, this.2.2.2⟩
          rw [this.2.2.1]
          simp only [hv1def, hfv, hcongr]
          simp [List.append_assoc]

/-! ## Concrete data used by witnesses and counterexamples -/

def tileA : Item := { idx := 0, n := 3, alpha := 'A', hit := false }

def tileB : Item := { idx := 1, n := 3, alpha := 'B', hit := false }

def tileC : Item := { idx := 2, n := 3, alpha := 'C', hit := false }

/-- A loaded wheel holding exactly one Z tile. -/
def zebArea : AreaState := (make_word initArea "ZEB").1

/-- An area showing a replay highlight (as left by a completed `word_path`). -/
def demoBlue : PathRep := [⟨[0, 1], false⟩]

def demoHighlighted : AreaState :=
  { scene := { initScene with blues := [demoBlue] },
    view := { initView with has_highlighted := true },
    wheel := make_word_items "ZEB",
    last_path_highlighted := some demoBlue }

/-! ## The claims -/

/-- C1: the claim says a highlight request whose letters cannot be fully
matched raises AssignmentFailure and leaves the surface unchanged.  The code
does neither: on a wheel loaded with "ZEB" (one Z tile), `word_path "ZZZ"`
returns without any error — in particular not the spec's AssignmentFailure —
and adds a degenerate single-vertex blue path to the scene, having selected
only 1 of the 3 requested letters. -/
theorem C1_silent_partial_highlight :
    (word_path zebArea "ZZZ").2 = none
    ∧ (word_path zebArea "ZZZ").2 ≠ some WheelErr.assignmentFailure
    ∧ (word_path zebArea "ZZZ").1.scene.blues = zebArea.scene.blues ++ [[⟨[0], false⟩]]
    ∧ (select_word zebArea.wheel "ZZZ".toList).2.length = 1 := by
  refine ⟨rfl, by decide, by decide, by decide⟩

/-- C2: when every letter of the word can be matched against the wheel, the
selection loop of `word_path` performs exactly the spec's greedy left-to-right
assignment (first currently-unused tile of the matching character, in wheel
order, marked used), so it collects one tile per character, the collected
characters spell the word, and the collected tile instances are pairwise
distinct. -/
theorem C2_greedy_assignment (W word : String)
    (hm : canFullyMatch (make_word_items W) word.toList) :
    (select_word (make_word_items W) word.toList).2
        = (greedySpecSel (make_word_items W) word.toList []).map (fun x => { x with hit := true })
    ∧ (select_word (make_word_items W) word.toList).2.map Item.alpha = word.toList
    ∧ ((select_word (make_word_items W) word.toList).2.map Item.idx).Nodup
    ∧ (select_word (make_word_items W) word.toList).2.length = word.toList.length := by
  have hnd := make_word_items_idx_nodup W
  have hun := make_word_items_unhit W
  have hsw := select_word_setHits word.toList (make_word_items W) [] hnd hun
  rw [setHits_nil] at hsw
  have hcc : ∀ c, word.toList.count c ≤ freeCount (make_word_items W) [] c := by
    intro c
    rw [freeCount_nil_used]
    by_cases hcw : c ∈ word.toList
    · exact hm c hcw
    · rw [List.count_eq_zero_of_not_mem hcw]
      exact Nat.zero_le _
  obtain ⟨ha, hb, _⟩ := greedySpecSel_complete word.toList (make_word_items W) [] hnd hcc
  have hsel : (select_word (make_word_items W) word.toList).2
      = (greedySpecSel (make_word_items W) word.toList []).map
          (fun x => { x with hit := true }) := by
    rw [hsw]
  refine ⟨hsel, ?_, ?_, ?_⟩
  · rw [hsel, List.map_map]
    exact ha
  · rw [hsel, List.map_map]
    exact hb
  · rw [hsel, List.length_map, ← List.length_map (greedySpecSel _ _ _) Item.alpha, ha]

/-- C2 witness: `highlight("CAT")` on the wheel loaded with "TRACTOR" follows
the greedy rule and selects three distinct tile instances. -/
theorem C2_greedy_assignment_witness :
    canFullyMatch (make_word_items "TRACTOR") "CAT".toList
    ∧ ((select_word (make_word_items "TRACTOR") "CAT".toList).2
        = (greedySpecSel (make_word_items "TRACTOR") "CAT".toList []).map
            (fun x => { x with hit := true })
      ∧ (select_word (make_word_items "TRACTOR") "CAT".toList).2.map Item.alpha = "CAT".toList
      ∧ ((select_word (make_word_items "TRACTOR") "CAT".toList).2.map Item.idx).Nodup
      ∧ (select_word (make_word_items "TRACTOR") "CAT".toList).2.length
          = "CAT".toList.length) :=
  ⟨by decide, C2_greedy_assignment "TRACTOR" "CAT" (by decide)⟩

/-- C3: a drag that presses on tile `t1` and moves over `moves` before the
release emits exactly the concatenation of the distinct visited tiles'
characters in visit order; the selection equals those distinct visited tiles
and never contains duplicates. -/
theorem C3_drag_spells_visited (v0 : ViewState) (sc0 : Scene) (t1 : Item)
    (moves : List (Option Item))
    (hh : v0.has_highlighted = false)
    (hset : v0.selected_widgets_set = [])
    (hlist : v0.selected_widgets_list = []) :
    (mouseReleaseEvent
        (runEvents (v0, sc0) (Event.press (some t1) :: moves.map Event.move)).1
        (runEvents (v0, sc0) (Event.press (some t1) :: moves.map Event.move)).2).1.mouseReleaseProc_emits
      = v0.mouseReleaseProc_emits
        ++ [String.mk ((firstVisits (t1 :: moves.filterMap id)).map Item.alpha)]
    ∧ (runEvents (v0, sc0) (Event.press (some t1) :: moves.map Event.move)).1.selected_widgets_list
        = firstVisits (t1 :: moves.filterMap id)
    ∧ (runEvents (v0, sc0) (Event.press (some t1) :: moves.map Event.move)).1.selected_widgets_list.Nodup := by
  have hpress : mousePressEvent v0 (some t1)
      = { v0 with mouse_pressed := true, paint_path := [],
                  selected_widgets_set := [t1], selected_widgets_list := [t1],
                  mouseOverWidget_emits := v0.mouseOverWidget_emits ++ [t1] } := by
    simp [mousePressEvent, hh, hset]
  have hrun : runEvents (v0, sc0) (Event.press (some t1) :: moves.map Event.move)
      = runEvents (mousePressEvent v0 (some t1), sc0) (moves.map Event.move) := rfl
  rw [hrun, hpress]
  obtain ⟨h1, h2, h3, h4⟩ := runEvents_moves moves
    { v0 with mouse_pressed := true, paint_path := [],
              selected_widgets_set := [t1], selected_widgets_list := [t1],
              mouseOverWidget_emits := v0.mouseOverWidget_emits ++ [t1] } sc0 rfl rfl
  have hfv : firstVisits (t1 :: moves.filterMap id)
      = t1 :: firstVisitsAux [t1] (moves.filterMap id) := by
    simp [firstVisits, firstVisitsAux]
  refine ⟨?_, ?_, ?_⟩
  · simp only [mouseReleaseEvent]
    rw [h4, h3, hfv]
    rfl
  · rw [h3, hfv]
    rfl
  · rw [h3]
    obtain ⟨hn, ho⟩ := firstVisitsAux_nodup (moves.filterMap id) [t1]
    simp only [List.singleton_append, List.nodup_cons]
    exact ⟨fun hc => (ho t1 hc) (List.mem_cons_self t1 []), hn⟩

/-- C3 witness: pressing A then moving over B, back over A, over empty space
and over C spells "ABC" with no duplicated selection entry. -/
theorem C3_drag_spells_visited_witness :
    initView.has_highlighted = false
    ∧ initView.selected_widgets_set = []
    ∧ initView.selected_widgets_list = []
    ∧ ((mouseReleaseEvent
          (runEvents (initView, initScene) (Event.press (some tileA)
            :: [some tileB, some tileA, none, some tileC].map Event.move)).1
          (runEvents (initView, initScene) (Event.press (some tileA)
            :: [some tileB, some tileA, none, some tileC].map Event.move)).2).1.mouseReleaseProc_emits
        = initView.mouseReleaseProc_emits
          ++ [String.mk ((firstVisits (tileA ::
                ([some tileB, some tileA, none, some tileC] : List (Option Item)).filterMap id)).map
                Item.alpha)]
      ∧ (runEvents (initView, initScene) (Event.press (some tileA)
            :: [some tileB, some tileA, none, some tileC].map Event.move)).1.selected_widgets_list
          = firstVisits (tileA ::
              ([some tileB, some tileA, none, some tileC] : List (Option Item)).filterMap id)
      ∧ (runEvents (initView, initScene) (Event.press (some tileA)
            :: [some tileB, some tileA, none, some tileC].map Event.move)).1.selected_widgets_list.Nodup) :=
  ⟨rfl, rfl, rfl,
   C3_drag_spells_visited initView initScene tileA [some tileB, some tileA, none, some tileC]
     rfl rfl rfl⟩

/-- C4 counterexample: the claim says at most one live-drag path shape exists
at any time, the previous one being replaced on each recomputation.  But after
pressing A and moving over B then C, two green path items are on the surface:
`mouseMoveEvent` adds a new item on each qualifying move and removes none. -/
theorem C4_two_live_paths :
    (runEvents (initView, initScene)
        [Event.press (some tileA), Event.move (some tileB),
         Event.move (some tileC)]).2.greens.length = 2 := by
  decide

/-- C4 amended: each pointer-move while pressed with at least two selected
tiles afterwards adds one green path item holding the accumulated paint path
(the recomputed polyline appended to the previous contents); earlier live
paths are not removed, and all of them are removed only at release. -/
theorem C4_live_paths_accumulate (v : ViewState) (hit : Option Item) (sc : Scene) :
    (mouseMoveEvent v hit sc).2.greens
      = sc.greens ++
        (if v.mouse_pressed = true
            ∧ 1 < (mouseMoveEvent v hit sc).1.selected_widgets_list.length
         then [(mouseMoveEvent v hit sc).1.paint_path] else [])
    ∧ (mouseReleaseEvent v sc).2.greens = [] := by
  refine ⟨?_, rfl⟩
  by_cases hp : v.mouse_pressed
  · rcases hit with _ | t
    · by_cases hlen : 1 < v.selected_widgets_list.length
      · simp [mouseMoveEvent, hp, hlen]
      · simp [mouseMoveEvent, hp, hlen]
    · by_cases hmem : t ∈ v.selected_widgets_set
      · by_cases hlen : 1 < v.selected_widgets_list.length
        · simp [mouseMoveEvent, hp, hmem, hlen]
        · simp [mouseMoveEvent, hp, hmem, hlen]
      · by_cases hlen : 0 < v.selected_widgets_list.length
        · simp [mouseMoveEvent, hp, hmem, hlen]
        · simp [mouseMoveEvent, hp, hmem, hlen]
  · simp [mouseMoveEvent, hp]

/-- C5: while a replay highlight is showing, a press anywhere dismisses it —
the highlight path leaves the scene, `last_path_highlighted` and
`has_highlighted` are cleared, the tracker returns to idle (`mouse_pressed`
false), no selection is begun and no tile-entered signal is emitted by the
dismissing press — and the next press on a tile starts a drag normally. -/
theorem C5_press_dismisses_highlight (a : AreaState) (hit : Option Item) (t : Item)
    (p : PathRep)
    (hh : a.view.has_highlighted = true)
    (hset : a.view.selected_widgets_set = [])
    (hlist : a.view.selected_widgets_list = [])
    (hlast : a.last_path_highlighted = some p) :
    (systemMousePress a hit).last_path_highlighted = none
    ∧ (systemMousePress a hit).scene.blues = a.scene.blues.erase p
    ∧ (systemMousePress a hit).view.has_highlighted = false
    ∧ (systemMousePress a hit).view.mouse_pressed = false
    ∧ (systemMousePress a hit).view.selected_widgets_list = []
    ∧ (systemMousePress a hit).view.mouseOverWidget_emits = a.view.mouseOverWidget_emits
    ∧ (systemMousePress a hit).view.clearHighlight_emits = a.view.clearHighlight_emits + 1
    ∧ (systemMousePress (systemMousePress a hit) (some t)).view.mouse_pressed = true
    ∧ (systemMousePress (systemMousePress a hit) (some t)).view.selected_widgets_list = [t] := by
  refine ⟨?_, ?_, ?_, ?_, ?_, ?_, ?_, ?_, ?_⟩ <;>
    simp [systemMousePress, mousePressEvent, deselect, hh, hlast, hset, hlist]

/-- C5 witness: dismissing a showing highlight with a press over empty space,
then pressing on a tile, behaves as claimed on a concrete highlighted area. -/
theorem C5_press_dismisses_highlight_witness :
    demoHighlighted.view.has_highlighted = true
    ∧ demoHighlighted.view.selected_widgets_set = []
    ∧ demoHighlighted.view.selected_widgets_list = []
    ∧ demoHighlighted.last_path_highlighted = some demoBlue
    ∧ ((systemMousePress demoHighlighted none).last_path_highlighted = none
      ∧ (systemMousePress demoHighlighted none).scene.blues
          = demoHighlighted.scene.blues.erase demoBlue
      ∧ (systemMousePress demoHighlighted none).view.has_highlighted = false
      ∧ (systemMousePress demoHighlighted none).view.mouse_pressed = false
      ∧ (systemMousePress demoHighlighted none).view.selected_widgets_list = []
      ∧ (systemMousePress demoHighlighted none).view.mouseOverWidget_emits
          = demoHighlighted.view.mouseOverWidget_emits
      ∧ (systemMousePress demoHighlighted none).view.clearHighlight_emits
          = demoHighlighted.view.clearHighlight_emits + 1
      ∧ (systemMousePress (systemMousePress demoHighlighted none) (some tileA)).view.mouse_pressed
          = true
      ∧ (systemMousePress (systemMousePress demoHighlighted none) (some tileA)).view.selected_widgets_list
          = [tileA]) :=
  ⟨rfl, rfl, rfl, rfl,
   C5_press_dismisses_highlight demoHighlighted none tileA demoBlue rfl rfl rfl rfl⟩

/-- C6: for every index and positive count, the draw position is the circle
point `center + radius * (cos theta, sin theta)` with `theta = 2 pi i / n`
minus the glyph's half extents, and the anchor variant (`offset` set, smaller
nonzero radius) is the raw circle point at the same angle with no size
subtraction. -/
theorem C6_circular_layout (i n : ℕ) (cx cy radius hw hh rr : ℝ)
    (hn : 1 ≤ n) (h0 : 0 < rr) (hsm : rr < radius) :
    calc_position (mkItemGeom i n cx cy radius hw hh) none false
        = (cx + radius * Real.cos (angleOf i n) - hw,
           cy + radius * Real.sin (angleOf i n) - hh)
    ∧ calc_position (mkItemGeom i n cx cy radius hw hh) (some rr) true
        = (cx + rr * Real.cos (angleOf i n), cy + rr * Real.sin (angleOf i n)) := by
  constructor
  · simp [calc_position, mkItemGeom]
  · simp [calc_position, mkItemGeom, ne_of_gt h0]

/-- C6 witness: the single tile of a one-letter wheel at the source's actual
dimensions (center (50,50), draw radius 80, anchor radius 65). -/
theorem C6_circular_layout_witness :
    1 ≤ 1 ∧ (0:ℝ) < 65 ∧ (65:ℝ) < 80
    ∧ (calc_position (mkItemGeom 0 1 50 50 80 10 12) none false
        = (50 + 80 * Real.cos (angleOf 0 1) - 10, 50 + 80 * Real.sin (angleOf 0 1) - 12)
      ∧ calc_position (mkItemGeom 0 1 50 50 80 10 12) (some 65) true
        = (50 + 65 * Real.cos (angleOf 0 1), 50 + 65 * Real.sin (angleOf 0 1))) :=
  ⟨le_refl 1, by norm_num, by norm_num,
   C6_circular_layout 0 1 50 50 80 10 12 65 (le_refl 1) (by norm_num) (by norm_num)⟩

/-- C7: loading a word of length n creates exactly n tiles, tile i carries the
word's i-th character, its angle is `2 pi i / n`, consecutive angles differ by
exactly `2 pi / n`, and distinct tiles never share an angle. -/
theorem C7_wheel_layout (W : String) (i j : ℕ) (hn : 1 ≤ W.length) (hij : i ≠ j) :
    (make_word_items W).length = W.length
    ∧ (make_word_items W)[i]?
        = (W.toList[i]?.map fun c => ({ idx := i, n := W.length, alpha := c, hit := false } : Item))
    ∧ angleOf i W.length = 2 * Real.pi * i / W.length
    ∧ angleOf (i + 1) W.length - angleOf i W.length = 2 * Real.pi / W.length
    ∧ angleOf i W.length ≠ angleOf j W.length := by
  have hn0 : (W.length : ℝ) ≠ 0 := Nat.cast_ne_zero.mpr (by omega)
  refine ⟨?_, ?_, rfl, ?_, ?_⟩
  · unfold make_word_items
    rw [List.length_map, List.enum_length]
    rfl
  · unfold make_word_items
    rw [List.getElem?_map, List.getElem?_enum]
    cases h : W.toList[i]? with
    | none => rfl
    | some c => rfl
  · unfold angleOf
    field_simp
    ring
  · intro he
    unfold angleOf at he
    rw [div_eq_div_iff hn0 hn0] at he
    have h2p : (2 * Real.pi) ≠ 0 := mul_ne_zero two_ne_zero Real.pi_ne_zero
    have hmul : (2 * Real.pi) * (i : ℝ) = (2 * Real.pi) * (j : ℝ) :=
      mul_right_cancel₀ hn0 he
    have hcast : (i : ℝ) = (j : ℝ) := mul_left_cancel₀ h2p hmul
    exact hij (Nat.cast_injective hcast)

/-- C7 witness: the two-letter wheel "AB". -/
theorem C7_wheel_layout_witness :
    1 ≤ ("AB" : String).length ∧ (0 : ℕ) ≠ 1
    ∧ ((make_word_items "AB").length = ("AB" : String).length
      ∧ (make_word_items "AB")[0]?
          = (("AB" : String).toList[0]?.map fun c =>
              ({ idx := 0, n := ("AB" : String).length, alpha := c, hit := false } : Item))
      ∧ angleOf 0 ("AB" : String).length = 2 * Real.pi * ((0 : ℕ) : ℝ) / ("AB" : String).length
      ∧ angleOf (0 + 1) ("AB" : String).length - angleOf 0 ("AB" : String).length
          = 2 * Real.pi / ("AB" : String).length
      ∧ angleOf 0 ("AB" : String).length ≠ angleOf 1 ("AB" : String).length) :=
  ⟨by decide, by decide, C7_wheel_layout "AB" 0 1 (by decide) (by decide)⟩

/-- C8 counterexample: loading the empty word (a zero-length wheel) fails with
the uncaught Python index error from `letters[0]`, not with an explicit
InvalidArgument validation error, leaving the area unchanged. -/
theorem C8_no_invalid_argument :
    (make_word initArea "").2 = some WheelErr.indexError
    ∧ (make_word initArea "").2 ≠ some WheelErr.invalidArgument
    ∧ (make_word initArea "").1 = initArea := by
  refine ⟨rfl, by decide, by decide⟩

/-- C8 amended: a zero-length wheel is indeed invalid — `make_word` on the
empty word fails (with an index error, there being no explicit InvalidArgument
check) and leaves the area unchanged — and a one-letter wheel places its
single tile at angle 0. -/
theorem C8_zero_and_one_tile (a : AreaState) (c : Char) :
    (make_word a "").2 = some WheelErr.indexError
    ∧ (make_word a "").1 = a
    ∧ (make_word a (String.mk [c])).2 = none
    ∧ (make_word a (String.mk [c])).1.wheel
        = [{ idx := 0, n := 1, alpha := c, hit := false }]
    ∧ angleOf 0 1 = 0 := by
  refine ⟨rfl, ?_, rfl, rfl, ?_⟩
  · simp [make_word, make_word_items]
  · unfold angleOf
    simp

/-- C9: a release with at most one selected tile still emits the joined word
(empty or a single character) with no special-case rejection, clears the
selection and the pressed flag, and removes the live (green) paths. -/
theorem C9_short_release_still_emits (v : ViewState) (sc : Scene)
    (h : v.selected_widgets_list.length ≤ 1) :
    (mouseReleaseEvent v sc).1.mouseReleaseProc_emits
      = v.mouseReleaseProc_emits ++ [String.mk (v.selected_widgets_list.map Item.alpha)]
    ∧ (String.mk (v.selected_widgets_list.map Item.alpha)).length ≤ 1
    ∧ (mouseReleaseEvent v sc).1.selected_widgets_list = []
    ∧ (mouseReleaseEvent v sc).1.selected_widgets_set = []
    ∧ (mouseReleaseEvent v sc).1.mouse_pressed = false
    ∧ (mouseReleaseEvent v sc).1.paint_path = []
    ∧ (mouseReleaseEvent v sc).2.greens = [] := by
  refine ⟨rfl, ?_, rfl, rfl, rfl, rfl, rfl⟩
  show (v.selected_widgets_list.map Item.alpha).length ≤ 1
  rw [List.length_map]
  exact h

/-- C9 witness: releasing from the initial (empty-selection) state. -/
theorem C9_short_release_still_emits_witness :
    initView.selected_widgets_list.length ≤ 1
    ∧ ((mouseReleaseEvent initView initScene).1.mouseReleaseProc_emits
        = initView.mouseReleaseProc_emits
          ++ [String.mk (initView.selected_widgets_list.map Item.alpha)]
      ∧ (String.mk (initView.selected_widgets_list.map Item.alpha)).length ≤ 1
      ∧ (mouseReleaseEvent initView initScene).1.selected_widgets_list = []
      ∧ (mouseReleaseEvent initView initScene).1.selected_widgets_set = []
      ∧ (mouseReleaseEvent initView initScene).1.mouse_pressed = false
      ∧ (mouseReleaseEvent initView initScene).1.paint_path = []
      ∧ (mouseReleaseEvent initView initScene).2.greens = []) :=
  ⟨by decide, C9_short_release_still_emits initView initScene (by decide)⟩

/-- C10: every release emits a word-spelled notification and removes all green
live-path shapes; in particular, after a press that never landed on a tile, or
after a press that was consumed dismissing a replay highlight, the released
word is the empty string. -/
theorem C10_release_always_emits (v : ViewState) (sc : Scene) (hit : Option Item)
    (hset : v.selected_widgets_set = [])
    (hlist : v.selected_widgets_list = []) :
    (mouseReleaseEvent v sc).1.mouseReleaseProc_emits
      = v.mouseReleaseProc_emits ++ [String.mk (v.selected_widgets_list.map Item.alpha)]
    ∧ (mouseReleaseEvent v sc).2.greens = []
    ∧ (v.has_highlighted = false →
        (runEvents (v, sc) [Event.press none, Event.release]).1.mouseReleaseProc_emits
          = v.mouseReleaseProc_emits ++ [""])
    ∧ (v.has_highlighted = true →
        (runEvents (v, sc) [Event.press hit, Event.release]).1.mouseReleaseProc_emits
          = v.mouseReleaseProc_emits ++ [""]) := by
  refine ⟨rfl, rfl, ?_, ?_⟩
  · intro h
    simp [runEvents, stepEvent, mousePressEvent, mouseReleaseEvent, h, hlist]
  · intro h
    rcases hit with _ | t
    · simp [runEvents, stepEvent, mousePressEvent, mouseReleaseEvent, h, hlist]
    · simp [runEvents, stepEvent, mousePressEvent, mouseReleaseEvent, h, hlist]

/-- C10 witness: a press over empty space followed by a release, from the
initial state, emits the empty string and leaves no green path. -/
theorem C10_release_always_emits_witness :
    initView.selected_widgets_set = []
    ∧ initView.selected_widgets_list = []
    ∧ ((mouseReleaseEvent initView initScene).1.mouseReleaseProc_emits
        = initView.mouseReleaseProc_emits
          ++ [String.mk (initView.selected_widgets_list.map Item.alpha)]
      ∧ (mouseReleaseEvent initView initScene).2.greens = []
      ∧ (initView.has_highlighted = false →
          (runEvents (initView, initScene)
              [Event.press none, Event.release]).1.mouseReleaseProc_emits
            = initView.mouseReleaseProc_emits ++ [""])
      ∧ (initView.has_highlighted = true →
          (runEvents (initView, initScene)
              [Event.press none, Event.release]).1.mouseReleaseProc_emits
            = initView.mouseReleaseProc_emits ++ [""])) :=
  ⟨rfl, rfl, C10_release_always_emits initView initScene none rfl rfl⟩

end Wssgui
